import Mathlib

/-!
Verification of the Fourier-coefficient calculator (`src/main.rs`) against its
specification.  The numeric pipeline is embedded shallowly: `f64` arithmetic is
interpreted over the reals `ℝ`, `Vec<f64>` becomes `List ℝ`, the parallel
iterator combinators (`zip`, `map`, `sum`, `collect`) become their sequential
list counterparts (the reduction is a plain sum, so the parallel schedule is
irrelevant in exact arithmetic), and the `RangeInclusive<usize>` harmonic range
becomes `List.range'`.  Failure by `panic` is modelled as `Option.none`, and a
returned `Err` as `Except.error`.
-/

namespace FourierCoefficients

noncomputable section

/-- Embedding of the Rust struct `Args` (src/main.rs:21-26): the validated CLI
arguments.  The field `n_range = n_min..=n` is represented by its two
endpoints `n_min` and `n_max`. -/
structure Args where
  show_progress : Bool
  n_min : ℕ
  n_max : ℕ
  input_files : List String

/-- Embedding of `get_args` (src/main.rs:48-66).  The CLI layer guarantees `n`
and the optional `n0` are natural numbers (`usize`); the only validation the
function performs is rejecting a supplied `n0` greater than `n`. -/
def get_args (show_progress : Bool) (n0 : Option ℕ) (n : ℕ)
    (input_files : List String) : Except String Args :=
  match n0 with
  | some x =>
      if x > n then Except.error "Value for n0 greater than n"
      else Except.ok ⟨show_progress, x, n, input_files⟩
  | none => Except.ok ⟨show_progress, 1, n, input_files⟩

/-- Embedding of the data assembly in `parse_files` (src/main.rs:70-85), after
the text lines have been parsed into reals: the function appends `data[0]` to
close the period.  Indexing `data[0]` on an empty vector panics, modelled as
`none`. -/
def parse_files (data : List ℝ) : Option (List ℝ) :=
  match data with
  | [] => none
  | x :: xs => some ((x :: xs) ++ [x])

/-- Embedding of `compute_beta` (src/main.rs:87-94): zip `data[0..len-1]` with
`data[1..len]` and map `(a, b) ↦ b - a`. -/
def compute_beta (data : List ℝ) : List ℝ :=
  ((data.take (data.length - 1)).zip (data.drop 1)).map (fun p => p.2 - p.1)

/-- Embedding of `compute_alpha` (src/main.rs:97-109): zip `data[..len-1]`
with `betas` and with the index range `0..len-1`, and map
`((val, beta), idx) ↦ val - beta * idx`. -/
def compute_alpha (data : List ℝ) (betas : List ℝ) : List ℝ :=
  (((data.take (data.length - 1)).zip betas).zip
      (List.range (data.length - 1))).map
    (fun p => p.1.1 - p.1.2 * (p.2 : ℝ))

/-- Embedding of the inner `summand` of `compute_a_0` (src/main.rs:116-118):
`alpha * idx + 0.5 * beta * idx²`. -/
def a0_summand (alpha beta : ℝ) (idx : ℕ) : ℝ :=
  alpha * (idx : ℝ) + (0.5 : ℝ) * beta * (idx : ℝ) ^ 2

/-- Embedding of `compute_a_0` (src/main.rs:111-128): sum the telescoped
summand differences over all segments, then multiply by `2 / len`. -/
def compute_a_0 (alphas betas : List ℝ) : ℝ :=
  (((alphas.zip betas).zip (List.range alphas.length)).map
      (fun p => a0_summand p.1.1 p.1.2 (p.2 + 1) - a0_summand p.1.1 p.1.2 p.2)).sum
    * (2 / (alphas.length : ℝ))

/-- Embedding of the inner `summand` of `compute_a_n` (src/main.rs:136-144),
with the local `theta = 2π·n·idx / count` inlined. -/
def an_summand (alpha beta : ℝ) (n idx count : ℕ) : ℝ :=
  ((count : ℝ) / (4 * Real.pi ^ 2 * (n : ℝ) ^ 2)) *
    (2 * Real.pi * (n : ℝ) * (alpha + beta * (idx : ℝ)) *
        Real.sin (2 * Real.pi * (n : ℝ) * (idx : ℝ) / (count : ℝ)) +
      (count : ℝ) * beta *
        Real.cos (2 * Real.pi * (n : ℝ) * (idx : ℝ) / (count : ℝ)))

/-- Embedding of the per-harmonic closure of `compute_a_n` (src/main.rs:148-156):
the coefficient `aₙ` for one harmonic `n`. -/
def a_n_single (alphas betas : List ℝ) (n : ℕ) : ℝ :=
  (((alphas.zip betas).zip (List.range alphas.length)).map
      (fun p => an_summand p.1.1 p.1.2 n (p.2 + 1) alphas.length -
        an_summand p.1.1 p.1.2 n p.2 alphas.length)).sum
    * (2 / (alphas.length : ℝ))

/-- Embedding of `compute_a_n` (src/main.rs:130-159): map the per-harmonic
computation over the inclusive harmonic range. -/
def compute_a_n (alphas betas : List ℝ) (n_min n_max : ℕ) : List ℝ :=
  (List.range' n_min (n_max + 1 - n_min)).map (a_n_single alphas betas)

/-- Embedding of the inner `summand` of `compute_b_n` (src/main.rs:167-174),
with the local `theta = 2π·n·idx / count` inlined. -/
def bn_summand (alpha beta : ℝ) (n idx count : ℕ) : ℝ :=
  (-1 : ℝ) * ((count : ℝ) / (4 * Real.pi ^ 2 * (n : ℝ) ^ 2)) *
    (2 * Real.pi * (n : ℝ) * (alpha + beta * (idx : ℝ)) *
        Real.cos (2 * Real.pi * (n : ℝ) * (idx : ℝ) / (count : ℝ)) -
      (count : ℝ) * beta *
        Real.sin (2 * Real.pi * (n : ℝ) * (idx : ℝ) / (count : ℝ)))

/-- Embedding of the per-harmonic closure of `compute_b_n` (src/main.rs:179-187):
the coefficient `bₙ` for one harmonic `n`. -/
def b_n_single (alphas betas : List ℝ) (n : ℕ) : ℝ :=
  (((alphas.zip betas).zip (List.range alphas.length)).map
      (fun p => bn_summand p.1.1 p.1.2 n (p.2 + 1) alphas.length -
        bn_summand p.1.1 p.1.2 n p.2 alphas.length)).sum
    * (2 / (alphas.length : ℝ))

/-- Embedding of `compute_b_n` (src/main.rs:161-190). -/
def compute_b_n (alphas betas : List ℝ) (n_min n_max : ℕ) : List ℝ :=
  (List.range' n_min (n_max + 1 - n_min)).map (b_n_single alphas betas)

/-- Spec-side definition, following §4.3 of the specification verbatim:
`ω_n = 2π·n / N`. -/
def omega_n (N n : ℕ) : ℝ := 2 * Real.pi * (n : ℝ) / (N : ℝ)

/-- Spec-side definition, following §4.3: `θ(idx) = ω_n · idx`. -/
def theta_spec (N n idx : ℕ) : ℝ := omega_n N n * (idx : ℝ)

/-- Spec-side definition, following §4.3:
`S_cos_i(idx) = (N / (4π²n²)) · [2π·n·(α + β·idx)·sin(θ(idx)) + N·β·cos(θ(idx))]`. -/
def S_cos (N : ℕ) (alpha beta : ℝ) (n idx : ℕ) : ℝ :=
  ((N : ℝ) / (4 * Real.pi ^ 2 * (n : ℝ) ^ 2)) *
    (2 * Real.pi * (n : ℝ) * (alpha + beta * (idx : ℝ)) *
        Real.sin (theta_spec N n idx) +
      (N : ℝ) * beta * Real.cos (theta_spec N n idx))

/-- Spec-side definition, following §4.3:
`S_sin_i(idx) = −(N / (4π²n²)) · [2π·n·(α + β·idx)·cos(θ(idx)) − N·β·sin(θ(idx))]`. -/
def S_sin (N : ℕ) (alpha beta : ℝ) (n idx : ℕ) : ℝ :=
  -((N : ℝ) / (4 * Real.pi ^ 2 * (n : ℝ) ^ 2)) *
    (2 * Real.pi * (n : ℝ) * (alpha + beta * (idx : ℝ)) *
        Real.cos (theta_spec N n idx) -
      (N : ℝ) * beta * Real.sin (theta_spec N n idx))

end

/-! ### Bridging lemmas between the list combinators and `Finset` sums -/

lemma range_map_sum (f : ℕ → ℝ) (n : ℕ) :
    ((List.range n).map f).sum = ∑ i ∈ Finset.range n, f i := by
  induction n with
  | zero => simp
  | succ k ih =>
      rw [List.range_succ, Finset.sum_range_succ, List.map_append, List.sum_append, ih]
      simp

lemma zip_zip_range_eq (xs : List ℝ) : ∀ ys : List ℝ, ys.length = xs.length →
    (xs.zip ys).zip (List.range xs.length)
      = (List.range xs.length).map (fun i => ((xs.getD i 0, ys.getD i 0), i)) := by
  induction xs with
  | nil => intro ys _; simp
  | cons a xs ih =>
      intro ys h
      cases ys with
      | nil => simp at h
      | cons b ys =>
          simp only [List.length_cons, Nat.succ_inj] at h
          rw [List.length_cons, List.range_succ_eq_map, List.zip_cons_cons,
            List.zip_cons_cons, List.zip_map_right, ih ys h, List.map_map,
            List.map_cons, List.map_map]
          simp [Function.comp_def]

lemma zip_zip_range_map_sum (f : ℝ → ℝ → ℕ → ℝ) (xs ys : List ℝ)
    (h : ys.length = xs.length) :
    (((xs.zip ys).zip (List.range xs.length)).map (fun p => f p.1.1 p.1.2 p.2)).sum
      = ∑ i ∈ Finset.range xs.length, f (xs.getD i 0) (ys.getD i 0) i := by
  rw [zip_zip_range_eq xs ys h, List.map_map, range_map_sum]
  exact Finset.sum_congr rfl (fun i _ => rfl)

/-! ### Pointwise characterization of the segment model -/

lemma compute_beta_length (data : List ℝ) :
    (compute_beta data).length = data.length - 1 := by
  simp only [compute_beta, List.length_map, List.length_zip, List.length_take,
    List.length_drop]
  omega

lemma compute_beta_getD (data : List ℝ) (i : ℕ) (h : i + 1 < data.length) :
    (compute_beta data).getD i 0 = data.getD (i + 1) 0 - data.getD i 0 := by
  have h1 : i < (compute_beta data).length := by rw [compute_beta_length]; omega
  have h2 : 1 + i < data.length := by omega
  have hi : i < data.length := by omega
  rw [Nat.add_comm i 1, List.getD_eq_getElem _ _ h1,
    List.getD_eq_getElem data 0 h2, List.getD_eq_getElem data 0 hi]
  simp only [compute_beta, List.getElem_map, List.getElem_zip]
  rw [List.getElem_take, List.getElem_drop]

lemma compute_alpha_length (data betas : List ℝ)
    (h : betas.length = data.length - 1) :
    (compute_alpha data betas).length = data.length - 1 := by
  simp only [compute_alpha, List.length_map, List.length_zip, List.length_take,
    List.length_range]
  omega

lemma compute_alpha_getD (data betas : List ℝ) (i : ℕ)
    (hb : betas.length = data.length - 1) (h : i + 1 < data.length) :
    (compute_alpha data betas).getD i 0
      = data.getD i 0 - betas.getD i 0 * (i : ℝ) := by
  have h1 : i < (compute_alpha data betas).length := by
    rw [compute_alpha_length data betas hb]; omega
  rw [List.getD_eq_getElem _ _ h1,
    List.getD_eq_getElem _ _ (by omega : i < data.length),
    List.getD_eq_getElem _ _ (by omega : i < betas.length)]
  simp only [compute_alpha, List.getElem_map, List.getElem_zip,
    List.getElem_range]
  rw [List.getElem_take]

/-! ### Element access of the per-harmonic output vectors -/

lemma compute_a_n_getD (alphas betas : List ℝ) (n_min n_max n : ℕ)
    (h1 : n_min ≤ n) (h2 : n ≤ n_max) :
    (compute_a_n alphas betas n_min n_max).getD (n - n_min) 0
      = a_n_single alphas betas n := by
  have hm : n - n_min < (compute_a_n alphas betas n_min n_max).length := by
    simp only [compute_a_n, List.length_map, List.length_range']
    omega
  rw [List.getD_eq_getElem _ _ hm]
  simp only [compute_a_n, List.getElem_map, List.getElem_range']
  congr 1
  omega

lemma compute_b_n_getD (alphas betas : List ℝ) (n_min n_max n : ℕ)
    (h1 : n_min ≤ n) (h2 : n ≤ n_max) :
    (compute_b_n alphas betas n_min n_max).getD (n - n_min) 0
      = b_n_single alphas betas n := by
  have hm : n - n_min < (compute_b_n alphas betas n_min n_max).length := by
    simp only [compute_b_n, List.length_map, List.length_range']
    omega
  rw [List.getD_eq_getElem _ _ hm]
  simp only [compute_b_n, List.getElem_map, List.getElem_range']
  congr 1
  omega

/-! ### The code's summands agree with the spec's antiderivative evaluations -/

lemma an_summand_eq_S_cos (alpha beta : ℝ) (n idx N : ℕ) :
    an_summand alpha beta n idx N = S_cos N alpha beta n idx := by
  have harg : theta_spec N n idx = 2 * Real.pi * (n : ℝ) * (idx : ℝ) / (N : ℝ) := by
    unfold theta_spec omega_n; ring
  rw [an_summand, S_cos, harg]

lemma bn_summand_eq_S_sin (alpha beta : ℝ) (n idx N : ℕ) :
    bn_summand alpha beta n idx N = S_sin N alpha beta n idx := by
  have harg : theta_spec N n idx = 2 * Real.pi * (n : ℝ) * (idx : ℝ) / (N : ℝ) := by
    unfold theta_spec omega_n; ring
  rw [bn_summand, S_sin, harg]
  ring

/-! ### Sum forms of the coefficient computations -/

lemma compute_a_0_sum (alphas betas : List ℝ) (hlen : betas.length = alphas.length) :
    compute_a_0 alphas betas
      = (∑ i ∈ Finset.range alphas.length,
          (a0_summand (alphas.getD i 0) (betas.getD i 0) (i + 1)
            - a0_summand (alphas.getD i 0) (betas.getD i 0) i))
        * (2 / (alphas.length : ℝ)) := by
  rw [compute_a_0]
  exact congrArg (· * (2 / (alphas.length : ℝ)))
    (zip_zip_range_map_sum
      (fun a b i => a0_summand a b (i + 1) - a0_summand a b i) alphas betas hlen)

lemma a_n_single_sum (alphas betas : List ℝ) (n : ℕ)
    (hlen : betas.length = alphas.length) :
    a_n_single alphas betas n
      = (∑ i ∈ Finset.range alphas.length,
          (an_summand (alphas.getD i 0) (betas.getD i 0) n (i + 1) alphas.length
            - an_summand (alphas.getD i 0) (betas.getD i 0) n i alphas.length))
        * (2 / (alphas.length : ℝ)) := by
  rw [a_n_single]
  exact congrArg (· * (2 / (alphas.length : ℝ)))
    (zip_zip_range_map_sum
      (fun a b i => an_summand a b n (i + 1) alphas.length
        - an_summand a b n i alphas.length) alphas betas hlen)

lemma b_n_single_sum (alphas betas : List ℝ) (n : ℕ)
    (hlen : betas.length = alphas.length) :
    b_n_single alphas betas n
      = (∑ i ∈ Finset.range alphas.length,
          (bn_summand (alphas.getD i 0) (betas.getD i 0) n (i + 1) alphas.length
            - bn_summand (alphas.getD i 0) (betas.getD i 0) n i alphas.length))
        * (2 / (alphas.length : ℝ)) := by
  rw [b_n_single]
  exact congrArg (· * (2 / (alphas.length : ℝ)))
    (zip_zip_range_map_sum
      (fun a b i => bn_summand a b n (i + 1) alphas.length
        - bn_summand a b n i alphas.length) alphas betas hlen)

/-! ### Claim theorems -/

/-- C2: for alpha and beta sequences of equal length `N ≥ 1`, `compute_a_0`
returns `(2/N) · Σ_{i=0}^{N-1} [G(i+1) − G(i)]` with
`G(x) = αᵢ·x + 0.5·βᵢ·x²`, over the reals. -/
theorem a0_closed_form (alphas betas : List ℝ)
    (hlen : betas.length = alphas.length) (hN : 1 ≤ alphas.length) :
    compute_a_0 alphas betas
      = 2 / (alphas.length : ℝ) * ∑ i ∈ Finset.range alphas.length,
          ((alphas.getD i 0 * ((i : ℝ) + 1)
              + 0.5 * betas.getD i 0 * ((i : ℝ) + 1) ^ 2)
            - (alphas.getD i 0 * (i : ℝ)
              + 0.5 * betas.getD i 0 * (i : ℝ) ^ 2)) := by
  rw [compute_a_0_sum alphas betas hlen, mul_comm]
  refine congrArg _ (Finset.sum_congr rfl fun i _ => ?_)
  simp only [a0_summand]
  push_cast
  ring

/-- C2 witness: the hypotheses and conclusion of `a0_closed_form` at
`alphas = [1, 2]`, `betas = [3, 4]`. -/
theorem a0_closed_form_witness :
    (([(3 : ℝ), 4] : List ℝ).length = ([(1 : ℝ), 2] : List ℝ).length
      ∧ 1 ≤ ([(1 : ℝ), 2] : List ℝ).length)
    ∧ compute_a_0 [(1 : ℝ), 2] [(3 : ℝ), 4]
        = 2 / (([(1 : ℝ), 2] : List ℝ).length : ℝ)
          * ∑ i ∈ Finset.range ([(1 : ℝ), 2] : List ℝ).length,
            ((([(1 : ℝ), 2] : List ℝ).getD i 0 * ((i : ℝ) + 1)
                + 0.5 * ([(3 : ℝ), 4] : List ℝ).getD i 0 * ((i : ℝ) + 1) ^ 2)
              - (([(1 : ℝ), 2] : List ℝ).getD i 0 * (i : ℝ)
                + 0.5 * ([(3 : ℝ), 4] : List ℝ).getD i 0 * (i : ℝ) ^ 2)) :=
  ⟨⟨rfl, by simp⟩, a0_closed_form [1, 2] [3, 4] rfl (by simp)⟩

/-- C3: for a sample sequence of length `L ≥ 2`, `compute_beta` returns a
sequence of length `L - 1` with `slopeᵢ = data[i+1] − data[i]`, and
`compute_alpha` returns a sequence of length `L - 1` with
`interceptᵢ = data[i] − slopeᵢ · i`. -/
theorem segment_model_pointwise (data : List ℝ) (hL : 2 ≤ data.length) :
    (compute_beta data).length = data.length - 1 ∧
    (compute_alpha data (compute_beta data)).length = data.length - 1 ∧
    ∀ i, i < data.length - 1 →
      (compute_beta data).getD i 0 = data.getD (i + 1) 0 - data.getD i 0 ∧
      (compute_alpha data (compute_beta data)).getD i 0
        = data.getD i 0 - (compute_beta data).getD i 0 * (i : ℝ) := by
  refine ⟨compute_beta_length data,
    compute_alpha_length data _ (compute_beta_length data), fun i hi => ?_⟩
  exact ⟨compute_beta_getD data i (by omega),
    compute_alpha_getD data _ i (compute_beta_length data) (by omega)⟩

/-- C3 witness: the hypotheses and conclusion of `segment_model_pointwise` at
`data = [0, 1]`. -/
theorem segment_model_pointwise_witness :
    2 ≤ ([(0 : ℝ), 1] : List ℝ).length
    ∧ ((compute_beta [(0 : ℝ), 1]).length = ([(0 : ℝ), 1] : List ℝ).length - 1 ∧
      (compute_alpha [(0 : ℝ), 1] (compute_beta [(0 : ℝ), 1])).length
        = ([(0 : ℝ), 1] : List ℝ).length - 1 ∧
      ∀ i, i < ([(0 : ℝ), 1] : List ℝ).length - 1 →
        (compute_beta [(0 : ℝ), 1]).getD i 0
          = ([(0 : ℝ), 1] : List ℝ).getD (i + 1) 0
            - ([(0 : ℝ), 1] : List ℝ).getD i 0 ∧
        (compute_alpha [(0 : ℝ), 1] (compute_beta [(0 : ℝ), 1])).getD i 0
          = ([(0 : ℝ), 1] : List ℝ).getD i 0
            - (compute_beta [(0 : ℝ), 1]).getD i 0 * (i : ℝ)) :=
  ⟨by simp, segment_model_pointwise [0, 1] (by simp)⟩

/-- C6: for a harmonic range `[n_min, n_max]` with `1 ≤ n_min ≤ n_max`, the
vectors returned by `compute_a_n` and `compute_b_n` have exactly
`n_max − n_min + 1` elements, and the element at position `n − n_min` is the
coefficient for harmonic `n`. -/
theorem range_alignment (alphas betas : List ℝ) (n_min n_max : ℕ)
    (h1 : 1 ≤ n_min) (h2 : n_min ≤ n_max) :
    (compute_a_n alphas betas n_min n_max).length = n_max - n_min + 1 ∧
    (compute_b_n alphas betas n_min n_max).length = n_max - n_min + 1 ∧
    ∀ n, n_min ≤ n → n ≤ n_max →
      (compute_a_n alphas betas n_min n_max).getD (n - n_min) 0
        = a_n_single alphas betas n ∧
      (compute_b_n alphas betas n_min n_max).getD (n - n_min) 0
        = b_n_single alphas betas n := by
  refine ⟨?_, ?_, fun n hlo hhi =>
    ⟨compute_a_n_getD alphas betas n_min n_max n hlo hhi,
      compute_b_n_getD alphas betas n_min n_max n hlo hhi⟩⟩
  · simp only [compute_a_n, List.length_map, List.length_range']
    omega
  · simp only [compute_b_n, List.length_map, List.length_range']
    omega

/-- C6 witness: the hypotheses and conclusion of `range_alignment` at
`alphas = [1]`, `betas = [2]`, `n_min = 1`, `n_max = 2`. -/
theorem range_alignment_witness :
    (1 ≤ 1 ∧ 1 ≤ 2)
    ∧ ((compute_a_n [(1 : ℝ)] [(2 : ℝ)] 1 2).length = 2 - 1 + 1 ∧
      (compute_b_n [(1 : ℝ)] [(2 : ℝ)] 1 2).length = 2 - 1 + 1 ∧
      ∀ n, 1 ≤ n → n ≤ 2 →
        (compute_a_n [(1 : ℝ)] [(2 : ℝ)] 1 2).getD (n - 1) 0
          = a_n_single [(1 : ℝ)] [(2 : ℝ)] n ∧
        (compute_b_n [(1 : ℝ)] [(2 : ℝ)] 1 2).getD (n - 1) 0
          = b_n_single [(1 : ℝ)] [(2 : ℝ)] n) :=
  ⟨⟨le_refl 1, by omega⟩, range_alignment [1] [2] 1 2 (le_refl 1) (by omega)⟩

/-- C7: for every sample sequence of length `≥ 2` and segment index `i`, the
derived slope and intercept reconstruct the samples:
`interceptᵢ + slopeᵢ·i = data[i]` and `interceptᵢ + slopeᵢ·(i+1) = data[i+1]`,
over the reals. -/
theorem segment_reconstruction (data : List ℝ) (hL : 2 ≤ data.length)
    (i : ℕ) (hi : i < data.length - 1) :
    (compute_alpha data (compute_beta data)).getD i 0
        + (compute_beta data).getD i 0 * (i : ℝ) = data.getD i 0 ∧
    (compute_alpha data (compute_beta data)).getD i 0
        + (compute_beta data).getD i 0 * ((i : ℝ) + 1) = data.getD (i + 1) 0 := by
  rw [compute_alpha_getD data _ i (compute_beta_length data) (by omega),
    compute_beta_getD data i (by omega)]
  constructor <;> ring

/-- C7 witness: the hypotheses and conclusion of `segment_reconstruction` at
`data = [0, 1]`, `i = 0`. -/
theorem segment_reconstruction_witness :
    (2 ≤ ([(0 : ℝ), 1] : List ℝ).length ∧ 0 < ([(0 : ℝ), 1] : List ℝ).length - 1)
    ∧ ((compute_alpha [(0 : ℝ), 1] (compute_beta [(0 : ℝ), 1])).getD 0 0
          + (compute_beta [(0 : ℝ), 1]).getD 0 0 * ((0 : ℕ) : ℝ)
        = ([(0 : ℝ), 1] : List ℝ).getD 0 0 ∧
      (compute_alpha [(0 : ℝ), 1] (compute_beta [(0 : ℝ), 1])).getD 0 0
          + (compute_beta [(0 : ℝ), 1]).getD 0 0 * (((0 : ℕ) : ℝ) + 1)
        = ([(0 : ℝ), 1] : List ℝ).getD (0 + 1) 0) :=
  ⟨⟨by simp, by simp⟩, segment_reconstruction [0, 1] (by simp) 0 (by simp)⟩

/-- C9: when `n0` is absent, `get_args` succeeds for every upper limit `n`,
yielding the default `n_min = 1`; with `n = 0` the harmonic range `1..=0` is
empty, for which `compute_a_n` and `compute_b_n` return empty vectors. -/
theorem absent_n0_default_empty_range (sp : Bool) (n : ℕ) (files : List String)
    (alphas betas : List ℝ) :
    get_args sp none n files = Except.ok ⟨sp, 1, n, files⟩ ∧
    compute_a_n alphas betas 1 0 = [] ∧
    compute_b_n alphas betas 1 0 = [] :=
  ⟨rfl, rfl, rfl⟩

/-- C1: for equal-length alpha/beta sequences with `N ≥ 1` and any harmonic
`n ≥ 1` inside the requested range, `compute_a_n` and `compute_b_n` return at
position `n − n_min` exactly `(2/N) · Σᵢ [S_cos_i(i+1) − S_cos_i(i)]` and
`(2/N) · Σᵢ [S_sin_i(i+1) − S_sin_i(i)]`, over the reals. -/
theorem harmonic_coefficients_closed_form (alphas betas : List ℝ)
    (n_min n_max n : ℕ) (hlen : betas.length = alphas.length)
    (hN : 1 ≤ alphas.length) (hn : 1 ≤ n) (hlo : n_min ≤ n) (hhi : n ≤ n_max) :
    (compute_a_n alphas betas n_min n_max).getD (n - n_min) 0
      = 2 / (alphas.length : ℝ) * ∑ i ∈ Finset.range alphas.length,
          (S_cos alphas.length (alphas.getD i 0) (betas.getD i 0) n (i + 1)
            - S_cos alphas.length (alphas.getD i 0) (betas.getD i 0) n i) ∧
    (compute_b_n alphas betas n_min n_max).getD (n - n_min) 0
      = 2 / (alphas.length : ℝ) * ∑ i ∈ Finset.range alphas.length,
          (S_sin alphas.length (alphas.getD i 0) (betas.getD i 0) n (i + 1)
            - S_sin alphas.length (alphas.getD i 0) (betas.getD i 0) n i) := by
  constructor
  · rw [compute_a_n_getD alphas betas n_min n_max n hlo hhi,
      a_n_single_sum alphas betas n hlen, mul_comm]
    refine congrArg _ (Finset.sum_congr rfl fun i _ => ?_)
    rw [an_summand_eq_S_cos, an_summand_eq_S_cos]
  · rw [compute_b_n_getD alphas betas n_min n_max n hlo hhi,
      b_n_single_sum alphas betas n hlen, mul_comm]
    refine congrArg _ (Finset.sum_congr rfl fun i _ => ?_)
    rw [bn_summand_eq_S_sin, bn_summand_eq_S_sin]

/-- C1 witness: the hypotheses and conclusion of
`harmonic_coefficients_closed_form` at `alphas = [1, 2]`, `betas = [3, 4]`,
`n_min = 1`, `n_max = 1`, `n = 1`. -/
theorem harmonic_coefficients_closed_form_witness :
    (([(3 : ℝ), 4] : List ℝ).length = ([(1 : ℝ), 2] : List ℝ).length
      ∧ 1 ≤ ([(1 : ℝ), 2] : List ℝ).length ∧ 1 ≤ 1 ∧ 1 ≤ 1 ∧ 1 ≤ 1)
    ∧ ((compute_a_n [(1 : ℝ), 2] [(3 : ℝ), 4] 1 1).getD (1 - 1) 0
        = 2 / (([(1 : ℝ), 2] : List ℝ).length : ℝ)
          * ∑ i ∈ Finset.range ([(1 : ℝ), 2] : List ℝ).length,
            (S_cos ([(1 : ℝ), 2] : List ℝ).length
                (([(1 : ℝ), 2] : List ℝ).getD i 0)
                (([(3 : ℝ), 4] : List ℝ).getD i 0) 1 (i + 1)
              - S_cos ([(1 : ℝ), 2] : List ℝ).length
                (([(1 : ℝ), 2] : List ℝ).getD i 0)
                (([(3 : ℝ), 4] : List ℝ).getD i 0) 1 i) ∧
      (compute_b_n [(1 : ℝ), 2] [(3 : ℝ), 4] 1 1).getD (1 - 1) 0
        = 2 / (([(1 : ℝ), 2] : List ℝ).length : ℝ)
          * ∑ i ∈ Finset.range ([(1 : ℝ), 2] : List ℝ).length,
            (S_sin ([(1 : ℝ), 2] : List ℝ).length
                (([(1 : ℝ), 2] : List ℝ).getD i 0)
                (([(3 : ℝ), 4] : List ℝ).getD i 0) 1 (i + 1)
              - S_sin ([(1 : ℝ), 2] : List ℝ).length
                (([(1 : ℝ), 2] : List ℝ).getD i 0)
                (([(3 : ℝ), 4] : List ℝ).getD i 0) 1 i)) :=
  ⟨⟨rfl, by simp, le_refl 1, le_refl 1, le_refl 1⟩,
    harmonic_coefficients_closed_form [1, 2] [3, 4] 1 1 1 rfl (by simp)
      (le_refl 1) (le_refl 1) (le_refl 1)⟩

/-- C10: on the alphas and betas derived from a sample sequence `s` of length
`N + 1` with `N ≥ 1`, `compute_a_0` equals the trapezoid mean
`(1/N) · Σᵢ (s[i] + s[i+1])`, and each telescoped summand difference
simplifies to `(s[i] + s[i+1]) / 2`. -/
theorem a0_equals_trapezoid_mean (s : List ℝ) (hL : 2 ≤ s.length) :
    compute_a_0 (compute_alpha s (compute_beta s)) (compute_beta s)
      = 1 / ((s.length - 1 : ℕ) : ℝ) *
          ∑ i ∈ Finset.range (s.length - 1), (s.getD i 0 + s.getD (i + 1) 0) ∧
    ∀ i, i < s.length - 1 →
      a0_summand ((compute_alpha s (compute_beta s)).getD i 0)
          ((compute_beta s).getD i 0) (i + 1)
        - a0_summand ((compute_alpha s (compute_beta s)).getD i 0)
          ((compute_beta s).getD i 0) i
        = (s.getD i 0 + s.getD (i + 1) 0) / 2 := by
  have hblen := compute_beta_length s
  have halen := compute_alpha_length s _ hblen
  have hterm : ∀ i, i < s.length - 1 →
      a0_summand ((compute_alpha s (compute_beta s)).getD i 0)
          ((compute_beta s).getD i 0) (i + 1)
        - a0_summand ((compute_alpha s (compute_beta s)).getD i 0)
          ((compute_beta s).getD i 0) i
        = (s.getD i 0 + s.getD (i + 1) 0) / 2 := by
    intro i hi
    rw [compute_alpha_getD s _ i hblen (by omega), compute_beta_getD s i (by omega)]
    simp only [a0_summand]
    push_cast
    ring
  refine ⟨?_, hterm⟩
  rw [compute_a_0_sum _ _ (by rw [hblen, halen]), halen]
  rw [Finset.sum_congr rfl fun i hi => hterm i (Finset.mem_range.mp hi)]
  rw [← Finset.sum_div]
  ring

/-- C10 witness: the hypotheses and conclusion of `a0_equals_trapezoid_mean`
at `s = [1, 5]`. -/
theorem a0_equals_trapezoid_mean_witness :
    2 ≤ ([(1 : ℝ), 5] : List ℝ).length
    ∧ (compute_a_0 (compute_alpha [(1 : ℝ), 5] (compute_beta [(1 : ℝ), 5]))
          (compute_beta [(1 : ℝ), 5])
        = 1 / ((([(1 : ℝ), 5] : List ℝ).length - 1 : ℕ) : ℝ) *
            ∑ i ∈ Finset.range (([(1 : ℝ), 5] : List ℝ).length - 1),
              (([(1 : ℝ), 5] : List ℝ).getD i 0
                + ([(1 : ℝ), 5] : List ℝ).getD (i + 1) 0) ∧
      ∀ i, i < ([(1 : ℝ), 5] : List ℝ).length - 1 →
        a0_summand
            ((compute_alpha [(1 : ℝ), 5] (compute_beta [(1 : ℝ), 5])).getD i 0)
            ((compute_beta [(1 : ℝ), 5]).getD i 0) (i + 1)
          - a0_summand
            ((compute_alpha [(1 : ℝ), 5] (compute_beta [(1 : ℝ), 5])).getD i 0)
            ((compute_beta [(1 : ℝ), 5]).getD i 0) i
          = (([(1 : ℝ), 5] : List ℝ).getD i 0
              + ([(1 : ℝ), 5] : List ℝ).getD (i + 1) 0) / 2) :=
  ⟨by simp, a0_equals_trapezoid_mean [1, 5] (by simp)⟩

/-- C4 counterexample: the code does not reject `n_min = 0` (a supplied
`n0 = 0` passes validation) and does not reject a single-sample sequence
(`parse_files` closes it into a two-point period and computation proceeds),
contradicting the claim that both fail with `InvalidInput`. -/
theorem invalid_input_counterexample :
    (get_args false (some 0) 5 ["input"]).isOk = true ∧
    parse_files [(3 : ℝ)] = some [3, 3] :=
  ⟨rfl, rfl⟩

/-- C4 amended: a harmonic range supplied with `n0 > n` is the only condition
rejected before computation; an empty sample sequence panics (modelled as
`none`) when the closing sample is appended, rather than failing with
`InvalidInput`; a single-sample sequence and `n_min = 0` are both accepted. -/
theorem validation_actual_behavior :
    (∀ (sp : Bool) (n0 n : ℕ) (files : List String),
        (get_args sp (some n0) n files).isOk = false ↔ n0 > n) ∧
    parse_files ([] : List ℝ) = none ∧
    (∀ (x : ℝ) (xs : List ℝ), parse_files (x :: xs) = some ((x :: xs) ++ [x])) := by
  refine ⟨fun sp n0 n files => ?_, rfl, fun x xs => rfl⟩
  simp only [get_args]
  by_cases h : n0 > n
  · rw [if_pos h]
    simpa [Except.isOk, Except.toBool] using h
  · rw [if_neg h]
    simpa [Except.isOk, Except.toBool] using h

/-- C5: if all samples equal `c`, every derived beta is `0` and every alpha is
`c`, `compute_a_0` returns `2c`, and `compute_a_n` and `compute_b_n` return
`0` for every harmonic `n ≥ 1` in the range, exactly over the reals. -/
theorem constant_signal_coefficients (data : List ℝ) (c : ℝ)
    (hc : ∀ x ∈ data, x = c) (hL : 2 ≤ data.length) (n_min n_max : ℕ) :
    (∀ i, i < data.length - 1 →
      (compute_beta data).getD i 0 = 0 ∧
      (compute_alpha data (compute_beta data)).getD i 0 = c) ∧
    compute_a_0 (compute_alpha data (compute_beta data)) (compute_beta data)
      = 2 * c ∧
    ∀ n, 1 ≤ n → n_min ≤ n → n ≤ n_max →
      (compute_a_n (compute_alpha data (compute_beta data)) (compute_beta data)
          n_min n_max).getD (n - n_min) 0 = 0 ∧
      (compute_b_n (compute_alpha data (compute_beta data)) (compute_beta data)
          n_min n_max).getD (n - n_min) 0 = 0 := by
  have hblen := compute_beta_length data
  have halen := compute_alpha_length data _ hblen
  have hlen2 : (compute_beta data).length
      = (compute_alpha data (compute_beta data)).length := by rw [hblen, halen]
  have hdata : ∀ i, i < data.length → data.getD i 0 = c := by
    intro i hi
    rw [List.getD_eq_getElem _ _ hi]
    exact hc _ (List.getElem_mem hi)
  have hbeta0 : ∀ i, i < data.length - 1 → (compute_beta data).getD i 0 = 0 := by
    intro i hi
    rw [compute_beta_getD data i (by omega), hdata (i + 1) (by omega),
      hdata i (by omega), sub_self]
  have halpha : ∀ i, i < data.length - 1 →
      (compute_alpha data (compute_beta data)).getD i 0 = c := by
    intro i hi
    rw [compute_alpha_getD data _ i hblen (by omega), hbeta0 i hi,
      hdata i (by omega)]
    ring
  have hNne : ((data.length - 1 : ℕ) : ℝ) ≠ 0 := Nat.cast_ne_zero.mpr (by omega)
  refine ⟨fun i hi => ⟨hbeta0 i hi, halpha i hi⟩, ?_, ?_⟩
  · have hsum : ∑ i ∈ Finset.range (data.length - 1),
        (a0_summand ((compute_alpha data (compute_beta data)).getD i 0)
            ((compute_beta data).getD i 0) (i + 1)
          - a0_summand ((compute_alpha data (compute_beta data)).getD i 0)
            ((compute_beta data).getD i 0) i)
        = ∑ _i ∈ Finset.range (data.length - 1), c := by
      refine Finset.sum_congr rfl fun i hi => ?_
      rw [Finset.mem_range] at hi
      rw [halpha i hi, hbeta0 i hi]
      simp only [a0_summand]
      push_cast
      ring
    rw [compute_a_0_sum _ _ hlen2, halen, hsum, Finset.sum_const,
      Finset.card_range, nsmul_eq_mul]
    have hcancel : (2 : ℝ) / ((data.length - 1 : ℕ) : ℝ)
        * ((data.length - 1 : ℕ) : ℝ) = 2 := div_mul_cancel₀ 2 hNne
    calc ((data.length - 1 : ℕ) : ℝ) * c * (2 / ((data.length - 1 : ℕ) : ℝ))
        = 2 / ((data.length - 1 : ℕ) : ℝ) * ((data.length - 1 : ℕ) : ℝ) * c := by
          ring
      _ = 2 * c := by rw [hcancel]
  · intro n hn hlo hhi
    constructor
    · rw [compute_a_n_getD _ _ _ _ _ hlo hhi,
        a_n_single_sum (compute_alpha data (compute_beta data))
          (compute_beta data) n hlen2, halen]
      have hsuma : ∑ i ∈ Finset.range (data.length - 1),
          (an_summand ((compute_alpha data (compute_beta data)).getD i 0)
              ((compute_beta data).getD i 0) n (i + 1) (data.length - 1)
            - an_summand ((compute_alpha data (compute_beta data)).getD i 0)
              ((compute_beta data).getD i 0) n i (data.length - 1))
          = ∑ i ∈ Finset.range (data.length - 1),
            (an_summand c 0 n (i + 1) (data.length - 1)
              - an_summand c 0 n i (data.length - 1)) := by
        refine Finset.sum_congr rfl fun i hi => ?_
        rw [Finset.mem_range] at hi
        rw [halpha i hi, hbeta0 i hi]
      have hgN : an_summand c 0 n (data.length - 1) (data.length - 1) = 0 := by
        have harg : 2 * Real.pi * (n : ℝ) * ((data.length - 1 : ℕ) : ℝ)
            / ((data.length - 1 : ℕ) : ℝ) = ((2 * n : ℕ) : ℝ) * Real.pi := by
          rw [mul_div_assoc, div_self hNne]
          push_cast
          ring
        simp only [an_summand]
        rw [harg, Real.sin_nat_mul_pi]
        ring
      have hg0 : an_summand c 0 n 0 (data.length - 1) = 0 := by
        simp [an_summand]
      rw [hsuma, Finset.sum_range_sub
        (fun j => an_summand c 0 n j (data.length - 1)), hgN, hg0]
      ring
    · rw [compute_b_n_getD _ _ _ _ _ hlo hhi,
        b_n_single_sum (compute_alpha data (compute_beta data))
          (compute_beta data) n hlen2, halen]
      have hsumb : ∑ i ∈ Finset.range (data.length - 1),
          (bn_summand ((compute_alpha data (compute_beta data)).getD i 0)
              ((compute_beta data).getD i 0) n (i + 1) (data.length - 1)
            - bn_summand ((compute_alpha data (compute_beta data)).getD i 0)
              ((compute_beta data).getD i 0) n i (data.length - 1))
          = ∑ i ∈ Finset.range (data.length - 1),
            (bn_summand c 0 n (i + 1) (data.length - 1)
              - bn_summand c 0 n i (data.length - 1)) := by
        refine Finset.sum_congr rfl fun i hi => ?_
        rw [Finset.mem_range] at hi
        rw [halpha i hi, hbeta0 i hi]
      have hbN : bn_summand c 0 n (data.length - 1) (data.length - 1)
          = -(((data.length - 1 : ℕ) : ℝ) / (4 * Real.pi ^ 2 * (n : ℝ) ^ 2))
            * (2 * Real.pi * (n : ℝ) * c) := by
        have harg : 2 * Real.pi * (n : ℝ) * ((data.length - 1 : ℕ) : ℝ)
            / ((data.length - 1 : ℕ) : ℝ) = (n : ℝ) * (2 * Real.pi) := by
          rw [mul_div_assoc, div_self hNne]
          ring
        simp only [bn_summand]
        rw [harg, Real.cos_nat_mul_two_pi]
        ring
      have hb0 : bn_summand c 0 n 0 (data.length - 1)
          = -(((data.length - 1 : ℕ) : ℝ) / (4 * Real.pi ^ 2 * (n : ℝ) ^ 2))
            * (2 * Real.pi * (n : ℝ) * c) := by
        simp only [bn_summand, Nat.cast_zero, mul_zero, zero_div,
          Real.cos_zero, Real.sin_zero, zero_mul, sub_zero, add_zero, mul_one]
        ring
      rw [hsumb, Finset.sum_range_sub
        (fun j => bn_summand c 0 n j (data.length - 1)), hbN, hb0]
      ring

/-- C5 witness: the hypotheses and conclusion of
`constant_signal_coefficients` at `data = [5, 5]`, `c = 5`,
`n_min = n_max = 1`. -/
theorem constant_signal_coefficients_witness :
    ((∀ x ∈ ([(5 : ℝ), 5] : List ℝ), x = 5)
      ∧ 2 ≤ ([(5 : ℝ), 5] : List ℝ).length)
    ∧ ((∀ i, i < ([(5 : ℝ), 5] : List ℝ).length - 1 →
        (compute_beta [(5 : ℝ), 5]).getD i 0 = 0 ∧
        (compute_alpha [(5 : ℝ), 5] (compute_beta [(5 : ℝ), 5])).getD i 0 = 5) ∧
      compute_a_0 (compute_alpha [(5 : ℝ), 5] (compute_beta [(5 : ℝ), 5]))
          (compute_beta [(5 : ℝ), 5])
        = 2 * 5 ∧
      ∀ n, 1 ≤ n → 1 ≤ n → n ≤ 1 →
        (compute_a_n (compute_alpha [(5 : ℝ), 5] (compute_beta [(5 : ℝ), 5]))
            (compute_beta [(5 : ℝ), 5]) 1 1).getD (n - 1) 0 = 0 ∧
        (compute_b_n (compute_alpha [(5 : ℝ), 5] (compute_beta [(5 : ℝ), 5]))
            (compute_beta [(5 : ℝ), 5]) 1 1).getD (n - 1) 0 = 0) :=
  ⟨⟨by simp, by simp⟩,
    constant_signal_coefficients [5, 5] 5 (by simp) (by simp) 1 1⟩

end FourierCoefficients
